import Mathlib

/-!
Shallow embedding of the `fio` concurrent direct-I/O write benchmark
(the build-tagged variant of the main program, plus the report site of the
untagged variant where a claim refers to it).

Pure control flow is translated directly from the source.  External
collaborators whose code is not in the repository sources (the minio
`ellipses` expansion package, `disk.OpenFileDirectIO`'s exclusive-create
semantics, `disk.AlignedBlock`, and `xioutil.CopyAligned`) are modelled from
the specification at their interface; each such definition carries a doc
comment saying so.
-/

/-- Errors surfaced by the writer and by configuration parsing.  In the Go
source every error is an opaque `error` value handled uniformly by
`log.Fatal`; the constructors here only record which source site produced
the error. -/
inductive Err where
  | ioErr (code : Nat)
  | mkdirFailed (code : Nat)
  | fileExists
  | fallocFailed (code : Nat)
  | sizeMismatch (expected : Int) (got : Nat)
deriving DecidableEq

/-- Observable steps of one `write` call, in program order: `MkdirAll`, the
exclusive `OpenFileDirectIO`, the `Fallocate` syscall, registration of the
`defer` running `Fdatasync`+`Close`, `pool.Get`, the slow-write report, and
the deferred `pool.Put`, `Fdatasync`, `Close` (defers run last-in
first-out). -/
inductive Event where
  | mkdirAll
  | openExcl
  | fallocCall
  | deferReg
  | bufGet
  | reportSlow
  | bufPut
  | fdatasync
  | fclose
deriving DecidableEq

/-- `time.Second` in nanoseconds, the slow-write threshold used at both
report sites (`d > time.Second`). -/
def oneSecond : Nat := 1000000000

/-- The untagged variant's slow-write report condition (part_000 lines
136-139): `if d > time.Second` — printed unconditionally, the debug flag is
not consulted; the message identifies the operation by `humanize.Ordinal(i+1)`. -/
def slowReportV1 (d : Nat) (_dbg : Bool) : Bool :=
  decide (d > oneSecond)

/-- The build-tagged variant's slow-write report condition (part_000 lines
328-331): `if d > time.Second && debug` — the message identifies the
operation by the file path `name`, not by ordinal. -/
def slowReportV2 (d : Nat) (dbg : Bool) : Bool :=
  decide (d > oneSecond) && dbg

/-- `Fallocate` (part_000 lines 260-269): for `len == 0` it returns `nil`
without entering the syscall; otherwise it performs
`syscall.Fallocate(fd, 1, offset, len)`, abstracted by the oracle `sys`.
The returned `Bool` records whether the syscall was performed. -/
def fallocateModel (fd offset len : Int) (sys : Int → Int → Int → Except Err Unit) :
    Except Err Unit × Bool :=
  if len = 0 then (Except.ok (), false) else (sys fd offset len, true)

/-- Environment of one `write` call: the outcomes of its fallible external
steps.  `mkdirErr` is the result of `os.MkdirAll`; `pathExists` says whether
the randomly constructed path already exists (deciding the exclusive open);
`fallocErr` is the result of the `Fallocate` syscall if attempted;
`copyRes` is what `xioutil.CopyAligned` returns (the written byte count or
an error); `duration` is the measured elapsed time in nanoseconds. -/
structure WriteEnv where
  mkdirErr : Option Err
  pathExists : Bool
  fallocErr : Option Err
  copyRes : Except Err Nat
  duration : Nat

/-- The tail of `write` after a successful exclusive open and preallocation
(part_000 lines 311-333): register the `Fdatasync`+`Close` defer, acquire a
buffer from the pool, run `CopyAligned`, check `written == fileSize`, emit
the slow report when `d > time.Second && debug`, then run the defers
(`pool.Put` first, then `Fdatasync` and `Close`). -/
def writeModelAfterOpen (fileSize : Int) (dbg : Bool) (env : WriteEnv)
    (pre : List Event) : Except Err Nat × List Event :=
  let pre2 := pre ++ [Event.deferReg, Event.bufGet]
  match env.copyRes with
  | Except.error e => (Except.error e, pre2 ++ [Event.bufPut, Event.fdatasync, Event.fclose])
  | Except.ok written =>
    if (written : Int) = fileSize then
      let evs := if slowReportV2 env.duration dbg then [Event.reportSlow] else []
      (Except.ok env.duration, pre2 ++ evs ++ [Event.bufPut, Event.fdatasync, Event.fclose])
    else
      (Except.error (Err.sizeMismatch fileSize written),
        pre2 ++ [Event.bufPut, Event.fdatasync, Event.fclose])

/-- `write` (part_000 lines 280-334): `MkdirAll`, exclusive
`OpenFileDirectIO` (fails with a "file exists" error when the path is
present), `Fallocate` when `fileSize > 0`, and only then the deferred
flush-and-close registration, buffer acquisition and the copy.  Returns the
result together with the ordered trace of observable events. -/
def writeModel (fileSize : Int) (dbg : Bool) (env : WriteEnv) :
    Except Err Nat × List Event :=
  match env.mkdirErr with
  | some e => (Except.error e, [Event.mkdirAll])
  | none =>
    if env.pathExists then
      (Except.error Err.fileExists, [Event.mkdirAll, Event.openExcl])
    else
      if fileSize > 0 then
        match env.fallocErr with
        | some e => (Except.error e, [Event.mkdirAll, Event.openExcl, Event.fallocCall])
        | none =>
          writeModelAfterOpen fileSize dbg env
            [Event.mkdirAll, Event.openExcl, Event.fallocCall]
      else
        writeModelAfterOpen fileSize dbg env [Event.mkdirAll, Event.openExcl]

/-- Modelled from the spec: `disk.OpenFileDirectIO` with
`os.O_CREATE|os.O_WRONLY|os.O_EXCL` (part_000 line 298) over a file system
given as a path/content association list — "Open/create the file
exclusively (fails if the name already exists ... not silently
overwritten)".  On success the new empty file is appended; on a collision
the call fails and no entry is touched. -/
def openFileExclModel (fs : List (String × List Nat)) (name : String) :
    Except Err (List (String × List Nat)) :=
  if (fs.map Prod.fst).contains name then Except.error Err.fileExists
  else Except.ok (fs ++ [(name, [])])

/-- The batch loop of `main` (part_000 lines 402-406): starting at index
`i`, emit a batch `(i, concurrency)` as long as `i < nfiles`, first
checking the slice expression `totalIntervals[i : i+concurrency]` against
the backing array's capacity `nfiles`; an out-of-range slice is a runtime
panic, modelled as `none`.  The fuel argument bounds the iteration count
(`nfiles + 1` suffices whenever the concurrency is positive). -/
def batchesFrom (T C : Nat) : Nat → Nat → Option (List (Nat × Nat))
  | 0, _ => none
  | fuel + 1, i =>
    if i < T then
      if i + C ≤ T then
        match batchesFrom T C fuel (i + C) with
        | none => none
        | some bs => some ((i, C) :: bs)
      else none
    else some []

/-- The scheduler of `main` (part_000 lines 399-407): one batch of size
`nfiles` when `nfiles < concurrency`, else the batch loop.  `none` models a
slice-bounds panic. -/
def schedule (T C : Nat) : Option (List (Nat × Nat)) :=
  if T < C then some [(0, T)] else batchesFrom T C (T + 1) 0

/-- Follows the spec's words (a second definition for comparison with the
source-derived `schedule`): partition `[0, T)` into consecutive batches,
each of size `min C (T - i)`, so every batch has size at most `C` and the
final batch may be short. -/
def specBatchesFrom (T C : Nat) : Nat → Nat → List (Nat × Nat)
  | 0, _ => []
  | fuel + 1, i =>
    if i < T then (i, min C (T - i)) :: specBatchesFrom T C fuel (i + min C (T - i))
    else []

/-- Follows the spec's words: the claimed batch partition of `[0, T)`. -/
def specBatches (T C : Nat) : List (Nat × Nat) :=
  specBatchesFrom T C (T + 1) 0

/-- One batch of `concurrentWrite` (part_000 lines 336-351): tasks for
indices `start ..< start + n`, each running `write`; any task error is
passed to `log.Fatal`, modelled as an `Except.error` short-circuit (the
model picks the least erroring index; the Go race picks an arbitrary one,
but any error is fatal either way).  On success the recorded durations are
returned in index order. -/
def runBatch (res : Nat → Except Err Nat) : Nat → Nat → Except Err (List Nat)
  | _, 0 => Except.ok []
  | start, n + 1 =>
    match res start with
    | Except.error e => Except.error e
    | Except.ok d =>
      match runBatch res (start + 1) n with
      | Except.error e => Except.error e
      | Except.ok ds => Except.ok (d :: ds)

/-- The scheduled batches run in order; a fatal batch stops the run and no
later batch is dispatched. -/
def runBatches (res : Nat → Except Err Nat) : List (Nat × Nat) → Except Err (List Nat)
  | [] => Except.ok []
  | b :: bs =>
    match runBatch res b.fst b.snd with
    | Except.error e => Except.error e
    | Except.ok ds =>
      match runBatches res bs with
      | Except.error e => Except.error e
      | Except.ok rest => Except.ok (ds ++ rest)

/-- Outcome of a whole run of `main`'s write phase: a slice-bounds panic in
the scheduler, a `log.Fatal` caused by a task error, or the full ordered
sample sequence. -/
inductive RunResult where
  | panic
  | fatal (e : Err)
  | ok (samples : List Nat)
deriving DecidableEq

/-- `main`'s write phase (part_000 lines 397-407): schedule the batches for
`T` objects at concurrency `C` and run them; `res i` is the outcome of
`write` for object index `i`. -/
def runModel (T C : Nat) (res : Nat → Except Err Nat) : RunResult :=
  match schedule T C with
  | none => RunResult.panic
  | some bs =>
    match runBatches res bs with
    | Except.error e => RunResult.fatal e
    | Except.ok ds => RunResult.ok ds

/-- `nullReader.Read` (part_000 lines 273-275): reports `len(b)` bytes read
and leaves the buffer untouched. -/
def nullRead (b : List Nat) : Nat × List Nat :=
  (b.length, b)

/-- Modelled from the spec: `disk.AlignedBlock` — the pool's buffers are
zero-initialized, block-aligned byte blocks of the given size ("reusable,
block-size-aligned zero-filled buffers"); alignment is a memory-layout
property with no content counterpart, so only the content is modelled. -/
def alignedBlock (n : Nat) : List Nat :=
  List.replicate n 0

/-- `readBlockSize` (part_000 line 223): `4 * humanize.MiByte`. -/
def readBlockSize : Nat := 4 * 1048576

/-- Modelled from the spec: the loop of `xioutil.CopyAligned` — repeatedly
read up to `len(buf)` bytes from the limited null-byte source (which caps
each read at the bytes still to transfer and leaves the buffer content as
is), append the filled prefix of the buffer to the file, until `totalSize`
bytes are transferred ("write exactly `sizeBytes` of synthetic (null) data
into the file using block-aligned I/O").  Returns the bytes appended to the
file and the written count.  The fuel bounds the iterations; `totalSize`
iterations suffice for a nonempty buffer since every step transfers at
least one byte. -/
def copyAlignedLoop (buf : List Nat) : Nat → Nat → List Nat × Nat
  | 0, _ => ([], 0)
  | fuel + 1, remaining =>
    if remaining = 0 then ([], 0)
    else
      if min (nullRead buf).fst remaining = 0 then ([], 0)
      else
        (buf.take (min (nullRead buf).fst remaining) ++
            (copyAlignedLoop buf fuel
              (remaining - min (nullRead buf).fst remaining)).fst,
          min (nullRead buf).fst remaining +
            (copyAlignedLoop buf fuel
              (remaining - min (nullRead buf).fst remaining)).snd)

/-- Modelled from the spec: `xioutil.CopyAligned` over the
`io.LimitReader(&nullReader, fileSize)` source, returning (file content
appended, bytes written). -/
def copyAligned (buf : List Nat) (totalSize : Nat) : List Nat × Nat :=
  copyAlignedLoop buf totalSize totalSize

/-- Go's `strings.Split(s, ",")` on the character list of `s`: splitting
the empty string yields the one-element list containing the empty string. -/
def splitComma : List Char → List (List Char)
  | [] => [[]]
  | c :: cs =>
    if c = ',' then [] :: splitComma cs
    else
      match splitComma cs with
      | [] => [[c]]
      | g :: gs => (c :: g) :: gs

/-- Scan for the first occurrence of character `c`, returning the part
before it and the part after it, or `none` when `c` does not occur. -/
def breakOn (c : Char) : List Char → Option (List Char × List Char)
  | [] => none
  | x :: xs =>
    if x = c then some ([], xs)
    else
      match breakOn c xs with
      | none => none
      | some (p, r) => some (x :: p, r)

/-- Scan for the first occurrence of the three-dot ellipsis, returning the
parts before and after it. -/
def splitDots : List Char → Option (List Char × List Char)
  | '.' :: '.' :: '.' :: rest => some ([], rest)
  | c :: rest =>
    match splitDots rest with
    | none => none
    | some (p, r) => some (c :: p, r)
  | [] => none

/-- Parse a nonempty all-digit character list as a natural number. -/
def parseNatDigits (cs : List Char) : Option Nat :=
  if cs.isEmpty then none
  else if cs.all Char.isDigit then
    some (cs.foldl (fun n c => n * 10 + (c.toNat - 48)) 0)
  else none

/-- Modelled from the spec: `ellipses.HasEllipses` — an entry counts as a
range pattern when it contains the three-dot ellipsis or an opening
brace. -/
def hasEllipses (s : String) : Bool :=
  (splitDots s.toList).isSome || (breakOn '{' s.toList).isSome

/-- Modelled from the spec: `ellipses.FindEllipsesPatterns` followed by
`Pattern.Expand` — an entry of the form prefix-open-brace `a...b`
close-brace-suffix with numeric `a ≤ b` denotes the paths obtained by
substituting each number of `[a, b]` in order ("each entry with a pattern
is expanded into all literal paths the pattern denotes"); anything else
containing ellipsis syntax is malformed (`none`). -/
def findEllipsesPatterns (s : String) : Option (List String) :=
  match breakOn '{' s.toList with
  | none => none
  | some (pre, rest) =>
    match breakOn '}' rest with
    | none => none
    | some (inner, post) =>
      match splitDots inner with
      | none => none
      | some (aCs, bCs) =>
        match parseNatDigits aCs, parseNatDigits bCs with
        | some a, some b =>
          if a ≤ b then
            some ((List.range' a (b + 1 - a)).map
              (fun i => pre.asString ++ toString i ++ post.asString))
          else none
        | _, _ => none

/-- The per-entry step of `parseDrives` (part_000 lines 357-369): a literal
entry is kept as is; a pattern entry is replaced by its expansion, and a
malformed pattern is fatal (`none`). -/
def expandEntry (e : String) : Option (List String) :=
  if hasEllipses e then findEllipsesPatterns e else some [e]

/-- The loop of `parseDrives`: expand the entries left to right, appending
each entry's contribution; the first malformed pattern aborts
(`log.Fatal`). -/
def expandEntries : List String → Option (List String)
  | [] => some []
  | e :: es =>
    match expandEntry e with
    | none => none
    | some xs =>
      match expandEntries es with
      | none => none
      | some rest => some (xs ++ rest)

/-- The comma-separated entries of a drive specification. -/
def entriesOf (h : String) : List String :=
  (splitComma h.toList).map List.asString

/-- `parseDrives` (part_000 lines 354-371): split on commas, expand every
entry, concatenate in order; `none` models the `log.Fatal` on a malformed
pattern. -/
def parseDrivesModel (h : String) : Option (List String) :=
  expandEntries (entriesOf h)

/-- Whether `main` exits fatally at the drive-resolution stage (part_000
lines 374-377): either `parseDrives` hit `log.Fatal` on a malformed
pattern, or the resolved list is empty (`len(drives) == 0`). -/
def drivesFatal (h : String) : Bool :=
  match parseDrivesModel h with
  | none => true
  | some ds => ds.isEmpty

/-- Number of literal (non-pattern) entries of a drive specification. -/
def literalCount (h : String) : Nat :=
  ((entriesOf h).filter (fun e => !hasEllipses e)).length

/-- Total number of paths the pattern entries of a drive specification
expand to. -/
def expandedCount (h : String) : Nat :=
  (((entriesOf h).filter (fun e => hasEllipses e)).map
    (fun e => ((findEllipsesPatterns e).getD []).length)).sum

/-- Ascending sort of the collected samples (`sort.Float64s`,
part_000 line 408). -/
def sortedSamples (l : List ℚ) : List ℚ :=
  l.insertionSort (fun a b => a ≤ b)

/-- Arithmetic mean of the samples (`stat.MeanStdDev`, treated as a
black-box numeric utility computing the arithmetic mean). -/
def meanModel (l : List ℚ) : ℚ :=
  l.sum / l.length

/-- The collected duration samples as rationals (`float64(d)` for
nanosecond durations `d`). -/
def samplesQ (l : List Nat) : List ℚ :=
  l.map (fun n : Nat => (n : ℚ))

/-- C1: the claim says that for total 10 and concurrency 3 the Scheduler
runs batches of sizes 3, 3, 3, 1.  Evaluating the source-derived model at
that input: the batch loop reaches `i = 9` and the slice expression
`totalIntervals[9:12]` exceeds the backing array's capacity 10, a runtime
panic (`schedule 10 3 = none`), so the run never performs the claimed
final batch of size 1; the spec-side partition `specBatches` would be
`[(0,3), (3,3), (6,3), (9,1)]`. -/
theorem c1_scheduler_panics_total10_conc3 :
    schedule 10 3 = none ∧
    runModel 10 3 (fun _ => Except.ok 0) = RunResult.panic ∧
    specBatches 10 3 = [(0, 3), (3, 3), (6, 3), (9, 1)] :=
  ⟨by decide, by decide, by decide⟩

/-- C3: the claim says the Resolver fails fatally on the empty drive
specification.  Evaluating the source-derived model at that failing input:
splitting the empty string on commas yields the one-entry list containing
the empty string, so `parseDrives ""` returns `[""]`, the
`len(drives) == 0` guard does not fire, and the run proceeds; a malformed
range pattern, by contrast, is fatal as claimed. -/
theorem c3_empty_spec_not_fatal :
    parseDrivesModel "" = some [""] ∧
    drivesFatal "" = false ∧
    drivesFatal "/mnt/drive\x7b1...\x7d" = true :=
  ⟨by decide, by decide, by decide⟩

/-- C6 counterexample: in the untagged variant the slow-write report is
printed with the debug mode disabled (here a 2-second write with
`debug = off`), so the report is not emitted "only when the debug/verbose
mode is enabled". -/
theorem c6_slow_report_counterexample :
    slowReportV1 (2 * oneSecond) false = true ∧
    ¬ (∀ (d : Nat) (dbg : Bool), slowReportV1 d dbg = true → dbg = true) := by
  refine ⟨by decide, fun hAll => ?_⟩
  have h := hAll (2 * oneSecond) false (by decide)
  exact Bool.false_ne_true h

/-- C6 amended: in the build-tagged variant the slow-write report is
emitted exactly when the debug mode is enabled and the duration exceeds
one second (and it identifies the operation by file path); in the untagged
variant it is emitted exactly when the duration exceeds one second,
regardless of debug (identified by ordinal position).  Moreover in the
writer model the report event occurs on a trace exactly when the write
succeeded and the build-tagged condition holds. -/
theorem c6_slow_report_amended :
    (∀ (d : Nat) (dbg : Bool), slowReportV2 d dbg = true ↔ (oneSecond < d ∧ dbg = true)) ∧
    (∀ (d : Nat) (dbg : Bool), slowReportV1 d dbg = true ↔ oneSecond < d) ∧
    (∀ (S : Int) (dbg : Bool) (env : WriteEnv),
      Event.reportSlow ∈ (writeModel S dbg env).snd ↔
        ((writeModel S dbg env).fst = Except.ok env.duration ∧
          slowReportV2 env.duration dbg = true)) := by
  refine ⟨?_, ?_, ?_⟩
  · intro d dbg
    simp [slowReportV2]
  · intro d dbg
    simp [slowReportV1]
  · intro S dbg env
    obtain ⟨mk, pe, fe, cr, du⟩ := env
    cases mk with
    | some e => simp [writeModel]
    | none =>
      cases pe with
      | true => simp [writeModel]
      | false =>
        cases cr with
        | error e =>
          by_cases hS : S > 0 <;>
            cases fe <;>
              simp [writeModel, writeModelAfterOpen, hS]
        | ok written =>
          by_cases hS : S > 0 <;>
            cases fe <;>
              by_cases hw : (written : Int) = S <;>
                by_cases hrep : slowReportV2 du dbg = true <;>
                  simp [writeModel, writeModelAfterOpen, hS, hw, hrep]

/-- C8: `Fallocate` with length 0 is a no-op that always succeeds: it
returns `nil` without performing the syscall, whatever the file
descriptor, the offset and the syscall's would-be outcome. -/
theorem c8_fallocate_zero_noop (fd offset : Int)
    (sys : Int → Int → Int → Except Err Unit) :
    fallocateModel fd offset 0 sys = (Except.ok (), false) := rfl

/-- C10: when `Fallocate` fails after the exclusive create, `write`
returns that error before the flush-and-close `defer` is registered and
before the buffer is acquired: the trace ends at the `Fallocate` call, with
no `Fdatasync`, no `Close`, and no pool acquisition or release. -/
theorem c10_falloc_error_skips_cleanup (S : Int) (dbg : Bool) (env : WriteEnv)
    (e : Err) (hmk : env.mkdirErr = none) (hex : env.pathExists = false)
    (hS : 0 < S) (hf : env.fallocErr = some e) :
    writeModel S dbg env =
      (Except.error e, [Event.mkdirAll, Event.openExcl, Event.fallocCall]) ∧
    Event.deferReg ∉ (writeModel S dbg env).snd ∧
    Event.fdatasync ∉ (writeModel S dbg env).snd ∧
    Event.fclose ∉ (writeModel S dbg env).snd ∧
    Event.bufGet ∉ (writeModel S dbg env).snd ∧
    Event.bufPut ∉ (writeModel S dbg env).snd := by
  obtain ⟨mk, pe, fe, cr, du⟩ := env
  simp only at hmk hex hf
  subst hmk hex hf
  have h1 : writeModel S dbg ⟨none, false, some e, cr, du⟩ =
      (Except.error e, [Event.mkdirAll, Event.openExcl, Event.fallocCall]) := by
    simp [writeModel, hS]
  refine ⟨h1, ?_, ?_, ?_, ?_, ?_⟩ <;> rw [h1] <;> simp

/-- C10 witness. -/
theorem c10_falloc_error_skips_cleanup_witness :
    (WriteEnv.mk none false (some (Err.fallocFailed 28)) (Except.ok 0) 0).mkdirErr = none ∧
    (WriteEnv.mk none false (some (Err.fallocFailed 28)) (Except.ok 0) 0).pathExists = false ∧
    (0 : Int) < 4096 ∧
    (WriteEnv.mk none false (some (Err.fallocFailed 28)) (Except.ok 0) 0).fallocErr
      = some (Err.fallocFailed 28) ∧
    (writeModel 4096 false ⟨none, false, some (Err.fallocFailed 28), Except.ok 0, 0⟩ =
        (Except.error (Err.fallocFailed 28),
          [Event.mkdirAll, Event.openExcl, Event.fallocCall]) ∧
      Event.deferReg ∉ (writeModel 4096 false
        ⟨none, false, some (Err.fallocFailed 28), Except.ok 0, 0⟩).snd ∧
      Event.fdatasync ∉ (writeModel 4096 false
        ⟨none, false, some (Err.fallocFailed 28), Except.ok 0, 0⟩).snd ∧
      Event.fclose ∉ (writeModel 4096 false
        ⟨none, false, some (Err.fallocFailed 28), Except.ok 0, 0⟩).snd ∧
      Event.bufGet ∉ (writeModel 4096 false
        ⟨none, false, some (Err.fallocFailed 28), Except.ok 0, 0⟩).snd ∧
      Event.bufPut ∉ (writeModel 4096 false
        ⟨none, false, some (Err.fallocFailed 28), Except.ok 0, 0⟩).snd) :=
  ⟨rfl, rfl, by decide, rfl,
    c10_falloc_error_skips_cleanup 4096 false
      ⟨none, false, some (Err.fallocFailed 28), Except.ok 0, 0⟩
      (Err.fallocFailed 28) rfl rfl (by decide) rfl⟩

/-- C9: with the target path already present, the exclusive open fails
with the "file exists" error: `write` returns it, the file-system model is
not modified (no overwrite is possible — the open never returns a handle),
and any batch containing such a task is fatal. -/
theorem c9_exclusive_create_no_overwrite (S : Int) (dbg : Bool) (env : WriteEnv)
    (hmk : env.mkdirErr = none) (hex : env.pathExists = true)
    (fs : List (String × List Nat)) (name : String)
    (hmem : (fs.map Prod.fst).contains name = true) :
    (writeModel S dbg env).fst = Except.error Err.fileExists ∧
    openFileExclModel fs name = Except.error Err.fileExists ∧
    (∀ fs2, openFileExclModel fs name ≠ Except.ok fs2) ∧
    (∀ n : Nat, runBatch (fun _ => (writeModel S dbg env).fst) 0 (n + 1) =
      Except.error Err.fileExists) := by
  obtain ⟨mk, pe, fe, cr, du⟩ := env
  simp only at hmk hex
  subst hmk hex
  have h1 : (writeModel S dbg ⟨none, true, fe, cr, du⟩).fst
      = Except.error Err.fileExists := by
    simp [writeModel]
  have h2 : openFileExclModel fs name = Except.error Err.fileExists := by
    unfold openFileExclModel
    rw [hmem]
    exact if_pos rfl
  refine ⟨h1, h2, ?_, ?_⟩
  · intro fs2
    rw [h2]
    intro hcontra
    exact Except.noConfusion hcontra
  · intro n
    simp [runBatch, h1]

/-- C9 witness. -/
theorem c9_exclusive_create_no_overwrite_witness :
    (WriteEnv.mk none true none (Except.ok 0) 0).mkdirErr = none ∧
    (WriteEnv.mk none true none (Except.ok 0) 0).pathExists = true ∧
    (([("/mnt/drive1/7.abc", [0])].map Prod.fst).contains "/mnt/drive1/7.abc" = true) ∧
    ((writeModel 4096 false ⟨none, true, none, Except.ok 0, 0⟩).fst
        = Except.error Err.fileExists ∧
      openFileExclModel [("/mnt/drive1/7.abc", [0])] "/mnt/drive1/7.abc"
        = Except.error Err.fileExists ∧
      (∀ fs2, openFileExclModel [("/mnt/drive1/7.abc", [0])] "/mnt/drive1/7.abc"
        ≠ Except.ok fs2) ∧
      (∀ n : Nat, runBatch
        (fun _ => (writeModel 4096 false ⟨none, true, none, Except.ok 0, 0⟩).fst)
        0 (n + 1) = Except.error Err.fileExists)) :=
  ⟨rfl, rfl, by decide,
    c9_exclusive_create_no_overwrite 4096 false ⟨none, true, none, Except.ok 0, 0⟩
      rfl rfl [("/mnt/drive1/7.abc", [0])] "/mnt/drive1/7.abc" (by decide)⟩

/-- In a batch, if the task at offset `j` fails with error `e` and every
earlier task succeeds, the whole batch is the `log.Fatal` of `e`,
whatever the kind of the error. -/
theorem runBatch_error_at (e : Err) (res : Nat → Except Err Nat) :
    ∀ (n start j : Nat), j < n → res (start + j) = Except.error e →
      (∀ k, k < j → ∃ dk, res (start + k) = Except.ok dk) →
      runBatch res start n = Except.error e := by
  intro n
  induction n with
  | zero => intro start j hj; omega
  | succ n ih =>
    intro start j hj hres hok
    cases j with
    | zero =>
      simp only [Nat.add_zero] at hres
      simp [runBatch, hres]
    | succ j =>
      obtain ⟨d0, hd0⟩ := hok 0 (Nat.succ_pos j)
      simp only [Nat.add_zero] at hd0
      have hres2 : res (start + 1 + j) = Except.error e := by
        have hrw : start + 1 + j = start + (j + 1) := by omega
        rw [hrw]; exact hres
      have hok2 : ∀ k, k < j → ∃ dk, res (start + 1 + k) = Except.ok dk := by
        intro k hk
        obtain ⟨dk, hdk⟩ := hok (k + 1) (by omega)
        refine ⟨dk, ?_⟩
        have hrw : start + 1 + k = start + (k + 1) := by omega
        rw [hrw]; exact hdk
      have htail := ih (start + 1) j (by omega) hres2 hok2
      simp [runBatch, hd0, htail]

/-- If the first scheduled batch is fatal, the whole run is fatal: no
retry, and no later batch is dispatched. -/
theorem runModel_fatal_of_first_batch (e : Err) (T C s0 n0 : Nat)
    (bs : List (Nat × Nat)) (res : Nat → Except Err Nat)
    (hs : schedule T C = some ((s0, n0) :: bs))
    (hb : runBatch res s0 n0 = Except.error e) :
    runModel T C res = RunResult.fatal e := by
  simp [runModel, hs, runBatches, hb]

/-- C5: a write whose byte count differs from the requested size returns
the size-mismatch error; any task error — of any kind, the size mismatch
included — makes its batch fatal with that very error, and a fatal first
batch makes the whole run fatal without dispatching any further batch. -/
theorem c5_size_mismatch_fatal (S : Int) (w : Nat) (dbg : Bool) (du : Nat)
    (hw : (w : Int) ≠ S) :
    (writeModel S dbg ⟨none, false, none, Except.ok w, du⟩).fst
      = Except.error (Err.sizeMismatch S w) ∧
    (∀ (e : Err) (n start j : Nat) (res : Nat → Except Err Nat),
      j < n → res (start + j) = Except.error e →
      (∀ k, k < j → ∃ dk, res (start + k) = Except.ok dk) →
      runBatch res start n = Except.error e) ∧
    (∀ (e : Err) (T C s0 n0 : Nat) (bs : List (Nat × Nat))
      (res : Nat → Except Err Nat),
      schedule T C = some ((s0, n0) :: bs) →
      runBatch res s0 n0 = Except.error e →
      runModel T C res = RunResult.fatal e) := by
  refine ⟨?_, ?_, ?_⟩
  · by_cases hS : S > 0 <;> simp [writeModel, writeModelAfterOpen, hS, hw]
  · intro e n start j res hj hres hok
    exact runBatch_error_at e res n start j hj hres hok
  · intro e T C s0 n0 bs res hs hb
    exact runModel_fatal_of_first_batch e T C s0 n0 bs res hs hb

/-- C5 witness. -/
theorem c5_size_mismatch_fatal_witness :
    ((3 : Nat) : Int) ≠ (4 : Int) ∧
    (writeModel 4 false ⟨none, false, none, Except.ok 3, 0⟩).fst
      = Except.error (Err.sizeMismatch 4 3) :=
  ⟨by decide, (c5_size_mismatch_fatal 4 3 false 0 (by decide)).1⟩

/-- The copy loop over a zero-filled buffer of positive size transfers
exactly the remaining byte count, appending only zero bytes, whenever the
fuel covers the remaining count. -/
theorem copyAlignedLoop_zeros (B : Nat) (hB : 1 ≤ B) :
    ∀ (fuel rem : Nat), rem ≤ fuel →
      copyAlignedLoop (alignedBlock B) fuel rem = (List.replicate rem 0, rem) := by
  intro fuel
  induction fuel with
  | zero =>
    intro rem hrem
    have h0 : rem = 0 := Nat.le_zero.mp hrem
    subst h0
    simp [copyAlignedLoop]
  | succ fuel ih =>
    intro rem hrem
    by_cases h0 : rem = 0
    · subst h0
      simp [copyAlignedLoop]
    · have hbuf : (nullRead (alignedBlock B)).fst = B := by
        simp [nullRead, alignedBlock]
      have hn : ¬ (min B rem = 0) := by omega
      have hrec := ih (rem - min B rem) (by omega)
      have htake : (alignedBlock B).take (min B rem)
          = List.replicate (min B rem) 0 := by
        rw [alignedBlock, List.take_replicate]
        have hmm : min (min B rem) B = min B rem := by omega
        rw [hmm]
      rw [copyAlignedLoop, if_neg h0, hbuf, if_neg hn, hrec, htake]
      have h1 : min B rem + (rem - min B rem) = rem := by omega
      rw [← List.replicate_add, h1]

/-- C4: through the zero-initialized aligned buffer, the copy of the
limited null stream appends exactly `S` bytes to the file, all of them
zero — no header, no metadata — and reports `S` bytes written (so the
writer's size check passes); the program's buffer size `readBlockSize` is
positive, so this covers the program's instantiation. -/
theorem c4_content_all_zero (B S : Nat) (hB : 1 ≤ B) (_hS : 0 < S) :
    (copyAligned (alignedBlock B) S).fst = List.replicate S 0 ∧
    (copyAligned (alignedBlock B) S).snd = S ∧
    ((copyAligned (alignedBlock B) S).fst).length = S ∧
    (∀ b2 ∈ (copyAligned (alignedBlock B) S).fst, b2 = 0) ∧
    1 ≤ readBlockSize := by
  have h := copyAlignedLoop_zeros B hB S S (Nat.le_refl S)
  have hfst : (copyAligned (alignedBlock B) S).fst = List.replicate S 0 := by
    rw [copyAligned, h]
  have hsnd : (copyAligned (alignedBlock B) S).snd = S := by
    rw [copyAligned, h]
  refine ⟨hfst, hsnd, ?_, ?_, ?_⟩
  · rw [hfst]
    exact List.length_replicate S 0
  · intro b2 hb2
    rw [hfst] at hb2
    exact List.eq_of_mem_replicate hb2
  · decide

/-- C4 witness. -/
theorem c4_content_all_zero_witness :
    1 ≤ 8 ∧ 0 < 5 ∧
    ((copyAligned (alignedBlock 8) 5).fst = List.replicate 5 0 ∧
      (copyAligned (alignedBlock 8) 5).snd = 5 ∧
      ((copyAligned (alignedBlock 8) 5).fst).length = 5 ∧
      (∀ b2 ∈ (copyAligned (alignedBlock 8) 5).fst, b2 = 0) ∧
      1 ≤ readBlockSize) :=
  ⟨by decide, by decide, c4_content_all_zero 8 5 (by decide) (by decide)⟩

/-- The resolver loop: when every entry expands, the output is the ordered
concatenation of the per-entry contributions, and its length is the number
of literal entries plus the total size of the pattern expansions. -/
theorem expandEntries_spec :
    ∀ (es : List String) (ds : List String), expandEntries es = some ds →
      ds = (es.map (fun e => (expandEntry e).getD [])).flatten ∧
      ds.length = (es.filter (fun e => !hasEllipses e)).length +
        ((es.filter (fun e => hasEllipses e)).map
          (fun e => ((findEllipsesPatterns e).getD []).length)).sum := by
  intro es
  induction es with
  | nil =>
    intro ds hds
    simp [expandEntries] at hds
    subst hds
    simp
  | cons e es ih =>
    intro ds hds
    unfold expandEntries at hds
    cases he : expandEntry e with
    | none => rw [he] at hds; exact absurd hds (by simp)
    | some xs =>
      rw [he] at hds
      cases hes : expandEntries es with
      | none => rw [hes] at hds; exact absurd hds (by simp)
      | some rest =>
        rw [hes] at hds
        simp at hds
        subst hds
        obtain ⟨ihj, ihl⟩ := ih rest hes
        constructor
        · simp [he, ihj]
        · by_cases hpat : hasEllipses e
          · have hfind : findEllipsesPatterns e = some xs := by
              rw [expandEntry, if_pos hpat] at he
              exact he
            simp [hpat, hfind, ihl]
            omega
          · have hxs : xs = [e] := by
              rw [expandEntry, if_neg hpat] at he
              simp at he
              exact he.symm
            subst hxs
            simp [hpat, ihl]
            omega

/-- C2: for every drive specification the Resolver accepts, the output has
exactly one path per literal entry plus one path per element of each
pattern entry's expansion — `N + K` paths — and it is exactly the
left-to-right concatenation of the per-entry contributions, preserving the
comma-separated ordering and the pattern-expansion ordering. -/
theorem c2_resolver_count_order (h : String) (ds : List String)
    (hp : parseDrivesModel h = some ds) :
    ds.length = literalCount h + expandedCount h ∧
    ds = ((entriesOf h).map (fun e => (expandEntry e).getD [])).flatten := by
  obtain ⟨hjoin, hlen⟩ := expandEntries_spec (entriesOf h) ds hp
  exact ⟨hlen, hjoin⟩

/-- C2 witness: two literal entries and one pattern entry expanding to
three paths resolve to five paths in order. -/
theorem c2_resolver_count_order_witness :
    parseDrivesModel "/mnt/a,/mnt/drive\x7b1...3\x7d,/mnt/b"
      = some ["/mnt/a", "/mnt/drive1", "/mnt/drive2", "/mnt/drive3", "/mnt/b"] ∧
    (["/mnt/a", "/mnt/drive1", "/mnt/drive2", "/mnt/drive3", "/mnt/b"].length
        = literalCount "/mnt/a,/mnt/drive\x7b1...3\x7d,/mnt/b"
          + expandedCount "/mnt/a,/mnt/drive\x7b1...3\x7d,/mnt/b" ∧
      ["/mnt/a", "/mnt/drive1", "/mnt/drive2", "/mnt/drive3", "/mnt/b"]
        = ((entriesOf "/mnt/a,/mnt/drive\x7b1...3\x7d,/mnt/b").map
            (fun e => (expandEntry e).getD [])).flatten) :=
  ⟨by decide,
    c2_resolver_count_order "/mnt/a,/mnt/drive\x7b1...3\x7d,/mnt/b"
      ["/mnt/a", "/mnt/drive1", "/mnt/drive2", "/mnt/drive3", "/mnt/b"] (by decide)⟩

/-- When the batch loop completes without a slice panic starting from
index `i ≤ T`, its batch sizes sum to exactly the remaining count. -/
theorem batchesFrom_sizes (T C : Nat) :
    ∀ (fuel i : Nat) (bs : List (Nat × Nat)), i ≤ T →
      batchesFrom T C fuel i = some bs →
      i + (bs.map Prod.snd).sum = T := by
  intro fuel
  induction fuel with
  | zero =>
    intro i bs _ hb
    exact absurd hb (by simp [batchesFrom])
  | succ fuel ih =>
    intro i bs hi hb
    unfold batchesFrom at hb
    by_cases hlt : i < T
    · rw [if_pos hlt] at hb
      by_cases hle : i + C ≤ T
      · rw [if_pos hle] at hb
        cases hrec : batchesFrom T C fuel (i + C) with
        | none => rw [hrec] at hb; exact absurd hb (by simp)
        | some bs2 =>
          rw [hrec] at hb
          simp at hb
          subst hb
          have hsum := ih (i + C) bs2 hle hrec
          simp
          omega
      · rw [if_neg hle] at hb
        exact absurd hb (by simp)
    · rw [if_neg hlt] at hb
      simp at hb
      subst hb
      simp
      omega

/-- When the scheduler completes without a panic, the batch sizes sum to
the total object count. -/
theorem schedule_sizes (T C : Nat) (bs : List (Nat × Nat))
    (hs : schedule T C = some bs) : (bs.map Prod.snd).sum = T := by
  unfold schedule at hs
  by_cases h : T < C
  · rw [if_pos h] at hs
    simp at hs
    subst hs
    simp
  · rw [if_neg h] at hs
    have := batchesFrom_sizes T C (T + 1) 0 bs (Nat.zero_le T) hs
    omega

/-- A batch of all-succeeding tasks yields the durations of its index
range, in order. -/
theorem runBatch_ok_map (f : Nat → Nat) :
    ∀ (n start : Nat), runBatch (fun i => Except.ok (f i)) start n =
      Except.ok ((List.range' start n).map f) := by
  intro n
  induction n with
  | zero => intro start; simp [runBatch]
  | succ n ih =>
    intro start
    rw [List.range'_succ]
    simp [runBatch, ih (start + 1)]

/-- Running all-succeeding batches yields one sample per scheduled index:
the sample count is the sum of the batch sizes. -/
theorem runBatches_ok_length (f : Nat → Nat) :
    ∀ bs : List (Nat × Nat), ∃ ds : List Nat,
      runBatches (fun i => Except.ok (f i)) bs = Except.ok ds ∧
      ds.length = (bs.map Prod.snd).sum := by
  intro bs
  induction bs with
  | nil => exact ⟨[], rfl, rfl⟩
  | cons b bs ih =>
    obtain ⟨ds, hds, hlen⟩ := ih
    refine ⟨(List.range' b.fst b.snd).map f ++ ds, ?_, ?_⟩
    · simp [runBatches, runBatch_ok_map, hds]
    · simp [hlen]

/-- A run of all-succeeding writes that completes yields exactly `T`
samples. -/
theorem runModel_ok_length (T C : Nat) (f : Nat → Nat) (samples : List Nat)
    (h : runModel T C (fun i => Except.ok (f i)) = RunResult.ok samples) :
    samples.length = T := by
  unfold runModel at h
  cases hs : schedule T C with
  | none => rw [hs] at h; exact absurd h (by simp)
  | some bs =>
    rw [hs] at h
    obtain ⟨ds, hds, hlen⟩ := runBatches_ok_length f bs
    simp [hds] at h
    subst h
    rw [hlen, schedule_sizes T C bs hs]

/-- In an ascending-sorted list the first element is a lower bound for
every member. -/
theorem sorted_headD_le (l : List ℚ)
    (hs : List.Sorted (fun a b : ℚ => a ≤ b) l) :
    ∀ x ∈ l, l.headD 0 ≤ x := by
  cases l with
  | nil => simp
  | cons a t =>
    intro x hx
    rcases List.mem_cons.mp hx with rfl | hxt
    · simp
    · simpa using (List.sorted_cons.mp hs).1 x hxt

/-- In an ascending-sorted list the last element is an upper bound for
every member. -/
theorem sorted_le_getLastD (l : List ℚ)
    (hs : List.Sorted (fun a b : ℚ => a ≤ b) l) :
    ∀ x ∈ l, x ≤ l.getLastD 0 := by
  induction l with
  | nil => simp
  | cons a t ih =>
    intro x hx
    cases t with
    | nil =>
      rcases List.mem_cons.mp hx with rfl | hxt
      · simp
      · exact absurd hxt (by simp)
    | cons b t2 =>
      have hcons := List.sorted_cons.mp hs
      have hlast : (a :: b :: t2).getLastD 0 = (b :: t2).getLastD 0 := by
        simp [List.getLastD]
      rcases List.mem_cons.mp hx with rfl | hxt
      · rw [hlast]
        calc x ≤ b := hcons.1 b (by simp)
          _ ≤ (b :: t2).getLastD 0 := ih hcons.2 b (by simp)
      · rw [hlast]
        exact ih hcons.2 x hxt

/-- A pointwise lower bound scales to the sum. -/
theorem length_mul_le_sum (l : List ℚ) (m : ℚ) (h : ∀ x ∈ l, m ≤ x) :
    (l.length : ℚ) * m ≤ l.sum := by
  induction l with
  | nil => simp
  | cons a t ih =>
    have ha := h a (by simp)
    have ht := ih (fun x hx => h x (by simp [hx]))
    simp only [List.length_cons, List.sum_cons]
    push_cast
    ring_nf
    ring_nf at ht
    linarith

/-- A pointwise upper bound scales to the sum. -/
theorem sum_le_length_mul (l : List ℚ) (m : ℚ) (h : ∀ x ∈ l, x ≤ m) :
    l.sum ≤ (l.length : ℚ) * m := by
  induction l with
  | nil => simp
  | cons a t ih =>
    have ha := h a (by simp)
    have ht := ih (fun x hx => h x (by simp [hx]))
    simp only [List.length_cons, List.sum_cons]
    push_cast
    ring_nf
    ring_nf at ht
    linarith

/-- C7: a run of `T ≥ 1` writes that reaches aggregation (the scheduler
completed and every write succeeded) collects exactly `T` samples, all
non-negative; after the ascending sort the first element is at most the
last, and the arithmetic mean lies between them inclusive. -/
theorem c7_aggregation_bounds (T C : Nat) (res : Nat → Nat) (samples : List Nat)
    (hT : 1 ≤ T)
    (hrun : runModel T C (fun i => Except.ok (res i)) = RunResult.ok samples) :
    samples.length = T ∧
    (∀ x ∈ samplesQ samples, 0 ≤ x) ∧
    (sortedSamples (samplesQ samples)).headD 0
      ≤ (sortedSamples (samplesQ samples)).getLastD 0 ∧
    (sortedSamples (samplesQ samples)).headD 0 ≤ meanModel (samplesQ samples) ∧
    meanModel (samplesQ samples) ≤ (sortedSamples (samplesQ samples)).getLastD 0 := by
  have hlen := runModel_ok_length T C res samples hrun
  have hql : (samplesQ samples).length = T := by
    simp [samplesQ, hlen]
  have hsort : List.Sorted (fun a b : ℚ => a ≤ b) (sortedSamples (samplesQ samples)) :=
    List.sorted_insertionSort _ (samplesQ samples)
  have hperm : (sortedSamples (samplesQ samples)).Perm (samplesQ samples) :=
    List.perm_insertionSort _ (samplesQ samples)
  have hslen : (sortedSamples (samplesQ samples)).length = T :=
    hperm.length_eq.trans hql
  have hsum : (sortedSamples (samplesQ samples)).sum = (samplesQ samples).sum :=
    hperm.sum_eq
  have hTpos : (0 : ℚ) < (T : ℚ) := by
    have : 0 < T := hT
    exact_mod_cast this
  have hhead_le : ∀ x ∈ sortedSamples (samplesQ samples),
      (sortedSamples (samplesQ samples)).headD 0 ≤ x :=
    sorted_headD_le _ hsort
  have hle_last : ∀ x ∈ sortedSamples (samplesQ samples),
      x ≤ (sortedSamples (samplesQ samples)).getLastD 0 :=
    sorted_le_getLastD _ hsort
  have hne : sortedSamples (samplesQ samples) ≠ [] := by
    intro hcontra
    rw [hcontra] at hslen
    simp at hslen
    omega
  have hheadmem : (sortedSamples (samplesQ samples)).headD 0
      ∈ sortedSamples (samplesQ samples) := by
    cases hl : sortedSamples (samplesQ samples) with
    | nil => exact absurd hl hne
    | cons a t => simp
  have hmean_lo : (sortedSamples (samplesQ samples)).headD 0
      ≤ meanModel (samplesQ samples) := by
    have hb := length_mul_le_sum (sortedSamples (samplesQ samples))
      ((sortedSamples (samplesQ samples)).headD 0) hhead_le
    rw [hslen, hsum] at hb
    rw [meanModel, hql, le_div_iff₀ hTpos]
    linarith
  have hmean_hi : meanModel (samplesQ samples)
      ≤ (sortedSamples (samplesQ samples)).getLastD 0 := by
    have hb := sum_le_length_mul (sortedSamples (samplesQ samples))
      ((sortedSamples (samplesQ samples)).getLastD 0) hle_last
    rw [hslen, hsum] at hb
    rw [meanModel, hql, div_le_iff₀ hTpos]
    linarith
  refine ⟨hlen, ?_, ?_, hmean_lo, hmean_hi⟩
  · intro x hx
    simp only [samplesQ, List.mem_map] at hx
    obtain ⟨n, _, rfl⟩ := hx
    exact Nat.cast_nonneg n
  · exact hle_last _ hheadmem

/-- C7 witness: four writes at concurrency two, all succeeding in 5ns. -/
theorem c7_aggregation_bounds_witness :
    1 ≤ 4 ∧
    runModel 4 2 (fun i => Except.ok ((fun _ => 5) i)) = RunResult.ok [5, 5, 5, 5] ∧
    ([5, 5, 5, 5].length = 4 ∧
      (∀ x ∈ samplesQ [5, 5, 5, 5], 0 ≤ x) ∧
      (sortedSamples (samplesQ [5, 5, 5, 5])).headD 0
        ≤ (sortedSamples (samplesQ [5, 5, 5, 5])).getLastD 0 ∧
      (sortedSamples (samplesQ [5, 5, 5, 5])).headD 0
        ≤ meanModel (samplesQ [5, 5, 5, 5]) ∧
      meanModel (samplesQ [5, 5, 5, 5])
        ≤ (sortedSamples (samplesQ [5, 5, 5, 5])).getLastD 0) :=
  ⟨by decide, by decide,
    c7_aggregation_bounds 4 2 (fun _ => 5) [5, 5, 5, 5] (by decide) (by decide)⟩
